import Mathlib

/-!
Verification development for the claude-document-enhancer repository.

JavaScript strings are modelled as lists of characters (`Str`), so that the
string-manipulation primitives used by the source (split, trim, join, padEnd)
become executable structurally recursive Lean functions.  Machine floats only
appear in one place (the average-length test of `isTableRow`), which is an
exact comparison of small integers and is modelled by the equivalent integer
comparison `sum < 20 * n`.
-/

namespace DocEnhancer

/-- JavaScript strings, modelled as lists of characters. -/
abbrev Str := List Char

/-- Conversion from a Lean string literal to the JavaScript string model. -/
def str (s : String) : Str := s.data

/-- Characters matched by the JavaScript regex class backslash-s, which is the
same set that `String.prototype.trim` removes (WhiteSpace plus
LineTerminator). -/
def isJsWs (c : Char) : Bool :=
  c = ' ' || c = '\t' || c = '\n' || c.val = 0x0B || c.val = 0x0C || c = '\r' ||
  c.val = 0x00A0 || c.val = 0x1680 || (0x2000 ≤ c.val && c.val ≤ 0x200A) ||
  c.val = 0x2028 || c.val = 0x2029 || c.val = 0x202F || c.val = 0x205F ||
  c.val = 0x3000 || c.val = 0xFEFF

/-- JavaScript `String.prototype.trim`: remove leading and trailing
whitespace. -/
def jsTrim (s : Str) : Str :=
  ((s.dropWhile isJsWs).reverse.dropWhile isJsWs).reverse

/-- JavaScript `s.split(c)` for a single literal character separator.
As in JavaScript, the empty string splits to one empty fragment. -/
def splitChar (c : Char) : Str → List Str
  | [] => [[]]
  | x :: xs =>
    match splitChar c xs with
    | [] => [[x]]
    | h :: t => if x = c then [] :: h :: t else (x :: h) :: t

/-- Split a text into its lines, in original order: `text.split('\n')`. -/
def splitNl (s : Str) : List Str := splitChar '\n' s

/-- Fuel-driven worker for splitting on maximal runs of length at least 2 of
characters satisfying `p` (the JavaScript regex split on `p` repeated twice or
more, greedy).  The fuel starts at the string length, so the zero-fuel case is
unreachable; it is present only to make the recursion structural. -/
def splitRun2Go (p : Char → Bool) : Nat → Str → List Str
  | _, [] => [[]]
  | 0, s => [s]
  | Nat.succ fuel, x :: xs =>
    if p x && !(xs.takeWhile p).isEmpty then
      [] :: splitRun2Go p fuel (xs.dropWhile p)
    else
      match splitRun2Go p fuel xs with
      | [] => [[x]]
      | h :: t => (x :: h) :: t

/-- JavaScript `line.split(/\s{2,}/)`: split on runs of 2 or more consecutive
whitespace characters. -/
def splitWs2 (s : Str) : List Str := splitRun2Go isJsWs s.length s

/-- Split on runs of 2 or more consecutive space characters (U+0020 only).
This follows the words of the specification sentence for the row classifier,
which says "space characters" where the code uses the whitespace class. -/
def splitSp2 (s : Str) : List Str := splitRun2Go (fun c => c = ' ') s.length s

/-- Sum of the lengths of a list of strings.  In the source this is
`parts.reduce((sum, part) => sum + part.length, 0)`. -/
def sumLens (parts : List Str) : Nat := (parts.map List.length).sum

/-- Row classifier `isTableRow` from src/pdf-processor.js lines 126-143,
translated clause by clause:
rule 1: empty or whitespace-only lines are not table rows;
rule 2: 2 or more tab characters make a table row;
rule 3: split on runs of 2 or more whitespace characters, keep the fragments
with non-empty trim, and require at least 3 parts, a digit somewhere, and an
average part length below 20 (`sum/n < 20` is the exact integer comparison
`sum < 20 * n`). -/
def isTableRow (line : Str) : Bool :=
  if (jsTrim line).isEmpty then false
  else
    let tabCount := line.count '\t'
    if 2 ≤ tabCount then true
    else
      let parts := (splitWs2 line).filter (fun p => !(jsTrim p).isEmpty)
      if 3 ≤ parts.length then
        let hasNumbers := parts.any (fun p => p.any Char.isDigit)
        hasNumbers && decide (sumLens parts < 20 * parts.length)
      else false

/-- The row classifier exactly as the claim words it: rule 3 splits on runs of
2 or more consecutive space characters and discards empty fragments. -/
def isTableRowSpec (line : Str) : Bool :=
  if (jsTrim line).isEmpty then false
  else if 2 ≤ line.count '\t' then true
  else
    let parts := (splitSp2 line).filter (fun p => !p.isEmpty)
    if parts.length < 3 then false
    else
      (parts.any (fun p => p.any Char.isDigit)) &&
        decide (sumLens parts < 20 * parts.length)

/-- The row classifier as the amended claim words it: identical to the claim
except that rule 3 splits on runs of 2 or more consecutive whitespace
characters and discards whitespace-only fragments. -/
def isTableRowAmended (line : Str) : Bool :=
  if (jsTrim line).isEmpty then false
  else if 2 ≤ line.count '\t' then true
  else
    let parts := (splitWs2 line).filter (fun p => !(jsTrim p).isEmpty)
    if parts.length < 3 then false
    else
      (parts.any (fun p => p.any Char.isDigit)) &&
        decide (sumLens parts < 20 * parts.length)

/-- Cell parsing `parseTableRows` from src/pdf-processor.js lines 145-154:
tab-containing lines split on tabs keeping empty cells, other lines split on
runs of 2 or more whitespace characters dropping empty cells; all cells are
trimmed. -/
def parseTableRows (tableLines : List Str) : List (List Str) :=
  tableLines.map (fun line =>
    if line.contains '\t' then
      (splitChar '\t' line).map jsTrim
    else
      ((splitWs2 line).map jsTrim).filter (fun cell => !cell.isEmpty))

/-- Scanner state of `detectTables` from src/pdf-processor.js lines 81-124:
the accumulated raw tables, the current candidate lines, the accumulated
residual text, and the in-table flag. -/
structure SegState where
  tables : List (List Str)
  currentTable : List Str
  textWithoutTables : Str
  inTable : Bool

/-- One iteration of the `detectTables` loop on an already-trimmed line. -/
def segStepLine (st : SegState) (line : Str) : SegState :=
  let hasTableStructure := isTableRow line
  if hasTableStructure && !st.inTable then
    { st with inTable := true, currentTable := [line] }
  else if hasTableStructure && st.inTable then
    { st with currentTable := st.currentTable ++ [line] }
  else if st.inTable && !hasTableStructure then
    { tables := st.tables ++
        (if 2 ≤ st.currentTable.length then [st.currentTable] else []),
      currentTable := [], inTable := false,
      textWithoutTables := st.textWithoutTables ++ line ++ ['\n'] }
  else
    { st with textWithoutTables := st.textWithoutTables ++ line ++ ['\n'] }

/-- One iteration of the `detectTables` loop: the raw line is trimmed first
(`const line = lines[i].trim()`). -/
def segStep (st : SegState) (raw : Str) : SegState := segStepLine st (jsTrim raw)

/-- End-of-input handling of `detectTables`: a still-open candidate with at
least 2 lines becomes a table. -/
def segClose (st : SegState) : List (List Str) :=
  st.tables ++
    (if st.inTable && decide (2 ≤ st.currentTable.length) then [st.currentTable]
     else [])

/-- The segmentation pass of `detectTables` before cell parsing: the list of
raw tables (each a list of trimmed lines) and the residual text before the
final trim. -/
def detectTablesRaw (text : Str) : List (List Str) × Str :=
  (segClose ((splitNl text).foldl segStep ⟨[], [], [], false⟩),
   ((splitNl text).foldl segStep ⟨[], [], [], false⟩).textWithoutTables)

/-- `detectTables` from src/pdf-processor.js lines 81-124: the parsed tables
and the trimmed residual text. -/
def detectTables (text : Str) : List (List (List Str)) × Str :=
  ((detectTablesRaw text).1.map parseTableRows, jsTrim (detectTablesRaw text).2)

/-- Classification of one input line by the segmenter: absorbed into a
confirmed table, kept as residual text, or dropped with a candidate of fewer
than 2 lines. -/
inductive LineTag where
  | tbl
  | res
  | drop
deriving DecidableEq

/-- Close a candidate run: its lines are table lines when the run has at
least 2 lines, dropped lines otherwise. -/
def closeRun (cur : List Str) : List (Str × LineTag) :=
  cur.map (fun l => (l, if 2 ≤ cur.length then LineTag.tbl else LineTag.drop))

/-- Tag every line of the input with its segmentation fate, threading the
current candidate run. -/
def segTagsGo (cur : List Str) : List Str → List (Str × LineTag)
  | [] => closeRun cur
  | l :: ls =>
    if isTableRow l then segTagsGo (cur ++ [l]) ls
    else closeRun cur ++ (l, LineTag.res) :: segTagsGo [] ls

/-- Tagged view of the segmentation of a list of trimmed lines. -/
def segTags (lines : List Str) : List (Str × LineTag) := segTagsGo [] lines

/-- The confirmed raw tables of a list of trimmed lines, threading the
current candidate run. -/
def tablesGo (cur : List Str) : List Str → List (List Str)
  | [] => if 2 ≤ cur.length then [cur] else []
  | l :: ls =>
    if isTableRow l then tablesGo (cur ++ [l]) ls
    else (if 2 ≤ cur.length then [cur] else []) ++ tablesGo [] ls

/-- The residual lines of a list of trimmed lines: exactly the lines the
classifier rejects, in original order. -/
def residLines (lines : List Str) : List Str :=
  lines.filter (fun l => !isTableRow l)

/-- The residual text before the final trim: every residual line followed by
a newline. -/
def residPre (lines : List Str) : Str :=
  ((residLines lines).map (fun l => l ++ ['\n'])).flatten

/-- JavaScript `Array.prototype.join(sep)`. -/
def joinWith (sep : Str) : List Str → Str
  | [] => []
  | [x] => x
  | x :: y :: rest => x ++ sep ++ joinWith sep (y :: rest)

/-- JavaScript `cell.padEnd(w)`: pad on the right with spaces up to width
`w`; longer cells are returned unchanged. -/
def padEnd (cell : Str) (w : Nat) : Str :=
  cell ++ List.replicate (w - cell.length) ' '

/-- Maximum row length of a table:
`Math.max(...tableRows.map(row => row.length))`, as the fold JavaScript
performs (equal to the true maximum on non-empty input). -/
def maxColsOf (rows : List (List Str)) : Nat :=
  rows.foldl (fun m r => max m r.length) 0

/-- Row normalization of `formatTable`: pad every row with empty cells up to
`maxCols`. -/
def normalizeRows (rows : List (List Str)) : List (List Str) :=
  rows.map (fun r => r ++ List.replicate (maxColsOf rows - r.length) [])

/-- One step of the column-width computation of `formatTable`: widen the
accumulated widths by the cell lengths of one row.  The source updates
`colWidths[i] = Math.max(colWidths[i], cell.length)` per cell; rows and the
width array always have equal length there because the rows are
normalized first. -/
def updW : List Nat → List Str → List Nat
  | ws, [] => ws
  | [], _ :: _ => []
  | w :: ws, c :: cs => max w c.length :: updW ws cs

/-- Column widths of `formatTable`: fold the normalized rows over a width
array initialized to zeros. -/
def colWidthsOf (rows : List (List Str)) : List Nat :=
  (normalizeRows rows).foldl updW (List.replicate (maxColsOf rows) 0)

/-- A horizontal border line of the grid rendering: left corner, dashes of
width `w + 2` per column joined by the junction character, right corner. -/
def hbar (l m r : Char) (ws : List Nat) : Str :=
  l :: (joinWith [m] (ws.map (fun w => List.replicate (w + 2) '─'))) ++ [r]

/-- A content line of the grid rendering: each cell padded to its column
width and wrapped in single spaces, the pieces joined and bordered by the
vertical bar character. -/
def rowLine (ws : List Nat) (row : List Str) : Str :=
  '│' :: (joinWith ['│']
    (List.zipWith (fun cell w => ' ' :: padEnd cell w ++ [' ']) row ws)) ++ ['│']

/-- `formatTable` from src/pdf-processor.js lines 156-204: normalize the rows,
compute column widths, then emit top border, header row, header separator and
data rows (only when there is more than one row), and bottom border. -/
def formatTable (tableRows : List (List Str)) : Str :=
  if tableRows.isEmpty then []
  else
    let colWidths := colWidthsOf tableRows
    let normalizedRows := normalizeRows tableRows
    hbar '┌' '┬' '┐' colWidths ++ ['\n'] ++
    (if 0 < normalizedRows.length then
      rowLine colWidths (normalizedRows.headD []) ++ ['\n'] ++
      (if 1 < normalizedRows.length then
        hbar '├' '┼' '┤' colWidths ++ ['\n'] ++
        ((normalizedRows.drop 1).map (fun r => rowLine colWidths r ++ ['\n'])).flatten
      else [])
    else []) ++
    hbar '└' '┴' '┘' colWidths

/-- The lines of the grid rendering of a non-empty table, in order: top
border, header row, header separator and data rows when there is more than
one row, bottom border. -/
def gridLines (tableRows : List (List Str)) : List Str :=
  let colWidths := colWidthsOf tableRows
  let normalizedRows := normalizeRows tableRows
  hbar '┌' '┬' '┐' colWidths ::
  rowLine colWidths (normalizedRows.headD []) ::
  ((if 1 < normalizedRows.length then
      hbar '├' '┼' '┤' colWidths :: (normalizedRows.drop 1).map (rowLine colWidths)
    else []) ++
   [hbar '└' '┴' '┘' colWidths])

/-- The top border of the grid rendering of a table. -/
def topBorderOf (tableRows : List (List Str)) : Str :=
  hbar '┌' '┬' '┐' (colWidthsOf tableRows)

/-- Decimal rendering of a number, as JavaScript template interpolation
renders a non-negative integer. -/
def numToStr (n : Nat) : Str := Nat.toDigits 10 n

/-- `enhanceText` from src/pdf-processor.js lines 47-79: metadata header,
then, when table extraction is on and tables were found, the tables section
followed by a content heading and the residual text, and otherwise the full
original text. -/
def enhanceText (extractTables : Bool) (text : Str) (numpages : Nat)
    (title : Option Str) : Str :=
  let enhanced := str "# Document Analysis\n\n"
  let enhanced := enhanced ++ str "**Document Type:** PDF\n"
  let enhanced := enhanced ++ str "**Pages:** " ++ numToStr numpages ++ ['\n']
  let enhanced := match title with
    | some t => enhanced ++ str "**Title:** " ++ t ++ ['\n']
    | none => enhanced
  let enhanced := enhanced ++ str "\n---\n\n"
  if extractTables then
    let tablesData := detectTables text
    if 0 < tablesData.1.length then
      let enhanced := enhanced ++ str "## Extracted Tables (" ++
        numToStr tablesData.1.length ++ str ")\n\n"
      let enhanced := enhanced ++
        (tablesData.1.enum.map (fun p =>
          str "### Table " ++ numToStr (p.1 + 1) ++ str "\n\n" ++
          formatTable p.2 ++ str "\n\n")).flatten
      enhanced ++ str "## Document Content\n\n" ++ tablesData.2
    else enhanced ++ text
  else enhanced ++ text

/-- The metadata header block of `enhanceText`. -/
def enhHeader (numpages : Nat) (title : Option Str) : Str :=
  str "# Document Analysis\n\n" ++ str "**Document Type:** PDF\n" ++
  str "**Pages:** " ++ numToStr numpages ++ ['\n'] ++
  (match title with
   | some t => str "**Title:** " ++ t ++ ['\n']
   | none => []) ++
  str "\n---\n\n"

/-- The tables section of `enhanceText`: a heading with the table count, then
one sub-heading and grid rendering per table. -/
def enhTablesSection (tables : List (List (List Str))) : Str :=
  str "## Extracted Tables (" ++ numToStr tables.length ++ str ")\n\n" ++
  (tables.enum.map (fun p =>
    str "### Table " ++ numToStr (p.1 + 1) ++ str "\n\n" ++
    formatTable p.2 ++ str "\n\n")).flatten

/-- Structured table record of src/processor.js: 1-based index, row count,
column count, and the cell data. -/
structure STable where
  index : Nat
  rows : Nat
  columns : Nat
  data : List (List Str)
deriving DecidableEq

/-- The rows an HTML table element contributes: cell texts trimmed, rows with
no cell elements dropped. -/
def cleanTbl (elt : List (List Str)) : List (List Str) :=
  (elt.map (fun row => row.map jsTrim)).filter (fun r => !r.isEmpty)

/-- Worker for `extractTablesFromHtml`, carrying the 0-based element index of
the markup walk. -/
def ethGo : Nat → List (List (List Str)) → List STable
  | _, [] => []
  | i, elt :: rest =>
    let tbl := cleanTbl elt
    (if 0 < tbl.length then
      [{ index := i + 1, rows := tbl.length, columns := (tbl.headD []).length,
         data := tbl }]
     else []) ++ ethGo (i + 1) rest

/-- `extractTablesFromHtml` from src/processor.js lines 168-197.  The markup
tree is modelled as the list of table elements in document order, each a list
of row elements, each a list of cell text contents; the walking of the tree
itself is done by the external cheerio library. -/
def extractTablesFromHtml (doc : List (List (List Str))) : List STable :=
  ethGo 0 doc

/-- Test for the regex `/\s{3,}/`: some run of 3 consecutive whitespace
characters. -/
def hasWsRun3 : Str → Bool
  | a :: b :: c :: rest =>
    (isJsWs a && isJsWs b && isJsWs c) || hasWsRun3 (b :: c :: rest)
  | _ => false

/-- Fuel-driven worker for the JavaScript split on `/\s{3,}|\t+|\|+/`: at
each position the alternatives are tried in order, each consuming greedily.
The fuel starts at the string length, so the zero-fuel case is
unreachable. -/
def splitTPGo : Nat → Str → List Str
  | _, [] => [[]]
  | 0, s => [s]
  | Nat.succ fuel, x :: xs =>
    if 3 ≤ ((x :: xs).takeWhile isJsWs).length then
      [] :: splitTPGo fuel ((x :: xs).dropWhile isJsWs)
    else if x = '\t' then
      [] :: splitTPGo fuel (xs.dropWhile (fun c => c = '\t'))
    else if x = '|' then
      [] :: splitTPGo fuel (xs.dropWhile (fun c => c = '|'))
    else
      match splitTPGo fuel xs with
      | [] => [[x]]
      | h :: t => (x :: h) :: t

/-- JavaScript `line.split(/\s{3,}|\t+|\|+/)` used by `detectTablesInText`. -/
def splitTabPipe (s : Str) : List Str := splitTPGo s.length s

/-- Scanner state of `detectTablesInText` from src/processor.js lines
199-250. -/
structure DTState where
  tables : List STable
  currentTable : List (List Str)
  inTable : Bool

/-- Close the current candidate of `detectTablesInText`: push it as a table
when it has more than one row, and leave table mode. -/
def dttClose (st : DTState) : DTState :=
  if st.inTable && decide (1 < st.currentTable.length) then
    { tables := st.tables ++
        [{ index := st.tables.length + 1, rows := st.currentTable.length,
           columns := maxColsOf st.currentTable, data := st.currentTable }],
      currentTable := [], inTable := false }
  else { st with currentTable := [], inTable := false }

/-- One iteration of the `detectTablesInText` loop. -/
def dttStep (st : DTState) (raw : Str) : DTState :=
  let line := jsTrim raw
  let hasMultipleSpaces := hasWsRun3 line
  let hasTabsOrPipes := line.any (fun c => c = '\t' || c = '|')
  let isTableLike := hasMultipleSpaces || hasTabsOrPipes
  if isTableLike && decide (10 < line.length) then
    let st1 := if !st.inTable then { st with inTable := true, currentTable := [] }
               else st
    let cells := ((splitTabPipe line).map jsTrim).filter (fun c => !c.isEmpty)
    if 1 < cells.length then { st1 with currentTable := st1.currentTable ++ [cells] }
    else st1
  else dttClose st

/-- `detectTablesInText` from src/processor.js lines 199-250: the end-of-input
handling closes a still-open candidate with the same more-than-one-row
rule. -/
def detectTablesInText (text : Str) : List STable :=
  (dttClose ((splitNl text).foldl dttStep ⟨[], [], false⟩)).tables

/-- A JavaScript value an identifier can resolve to in `formatForClaude`:
either a callable function or the plain table record. -/
inductive JsVal where
  | fn (f : List (List Str) → Str)
  | tblRec (t : STable)

/-- Resolution of the identifier `table` inside the forEach callback of
`formatForClaude`: the callback parameter named `table` is the innermost
binding and shadows the module-level import of the `table` rendering
function, so the identifier resolves to the table record. -/
def callbackTableBinding (t : STable) : JsVal := JsVal.tblRec t

/-- Calling a JavaScript value with one argument: calling a non-function
value throws a TypeError. -/
def jsCall1 (v : JsVal) (arg : List (List Str)) : Except Str Str :=
  match v with
  | JsVal.fn f => Except.ok (f arg)
  | JsVal.tblRec _ => Except.error (str "TypeError: table is not a function")

/-- The catch-branch fallback of `formatForClaude`:
`table.data.map(row => row.join(' | ')).join('\n')`. -/
def fallbackRender (data : List (List Str)) : Str :=
  joinWith ['\n'] (data.map (fun row => joinWith (str " | ") row))

/-- The enhanced-format rendering attempt of one table in `formatForClaude`:
call the value the identifier `table` resolves to, and on failure degrade to
the plain-joined-cells fallback. -/
def renderEnhancedTable (t : STable) : Str :=
  match jsCall1 (callbackTableBinding t) t.data with
  | Except.ok s => s ++ str "\n\n"
  | Except.error _ => fallbackRender t.data ++ str "\n\n"

/-- The per-table block of `formatForClaude`: the sub-heading with index and
row/column counts, then the markdown rendering or the enhanced-format
rendering attempt. -/
def fcTableBlock (mdRender : List (List Str) → Str) (outputFormat : Str)
    (t : STable) : Str :=
  str "### Table " ++ numToStr t.index ++ str " (" ++ numToStr t.rows ++
  str " rows × " ++ numToStr t.columns ++ str " columns)\n\n" ++
  (if outputFormat = str "markdown" then mdRender t.data ++ str "\n\n"
   else renderEnhancedTable t)

/-- POSIX `path.basename`: the last slash-separated component. -/
def jsBasename (s : Str) : Str := (splitChar '/' s).getLastD []

/-- The result record `formatForClaude` consumes. -/
structure JsResult where
  originalPath : Str
  mimeType : Str
  processingMethod : Str
  extractedText : Str
  tables : List STable

/-- The metadata header block of `formatForClaude`. -/
def fcHeader (r : JsResult) : Str :=
  str "## Document Analysis\n" ++ str "**File:** " ++
  jsBasename r.originalPath ++ ['\n'] ++
  str "**Type:** " ++ r.mimeType ++ ['\n'] ++
  str "**Processing Method:** " ++ r.processingMethod ++ str "\n\n"

/-- The tables section of `formatForClaude`, present only for a non-empty
table list. -/
def fcTablesSection (mdRender : List (List Str) → Str) (outputFormat : Str)
    (tables : List STable) : Str :=
  if 0 < tables.length then
    str "## Extracted Tables (" ++ numToStr tables.length ++ str ")\n\n" ++
    (tables.map (fcTableBlock mdRender outputFormat)).flatten
  else []

/-- The content section of `formatForClaude`: the full extracted text, present
only when it is non-empty. -/
def fcContent (r : JsResult) : Str :=
  if !r.extractedText.isEmpty then
    str "## Document Content\n\n" ++ r.extractedText
  else []

/-- `formatForClaude` from src/processor.js lines 267-324, translated
statement by statement.  The external markdown-table renderer is a
parameter; the `table` rendering library needs no model because the
identifier that would invoke it is shadowed at its only call site. -/
def formatForClaude (mdRender : List (List Str) → Str) (outputFormat : Str)
    (r : JsResult) : Str :=
  let output := str "## Document Analysis\n"
  let output := output ++ str "**File:** " ++ jsBasename r.originalPath ++ ['\n']
  let output := output ++ str "**Type:** " ++ r.mimeType ++ ['\n']
  let output := output ++ str "**Processing Method:** " ++ r.processingMethod ++
    str "\n\n"
  let output := if 0 < r.tables.length then
      output ++ str "## Extracted Tables (" ++ numToStr r.tables.length ++
      str ")\n\n" ++
      (r.tables.map (fcTableBlock mdRender outputFormat)).flatten
    else output
  let output := if !r.extractedText.isEmpty then
      output ++ str "## Document Content\n\n" ++ r.extractedText
    else output
  output

/-- Test whether `needle` occurs at the start of `hay`. -/
def startsWithStr : Str → Str → Bool
  | _, [] => true
  | [], _ :: _ => false
  | x :: xs, y :: ys => x = y && startsWithStr xs ys

/-- JavaScript `hay.includes(needle)`: substring test. -/
def strIncludes (hay needle : Str) : Bool :=
  match hay with
  | [] => needle.isEmpty
  | _ :: t => startsWithStr hay needle || strIncludes t needle

/-- C8: segmenting the two-line input "Q1   Revenue   100k   Growth",
"Q2   Revenue   150k   Growth" with a trailing newline yields exactly one
table with 2 rows of 4 cells each and an empty residual text; the column
count the renderer computes for it is 4. -/
theorem twoLineSegmentation :
    detectTables
        (str "Q1   Revenue   100k   Growth\nQ2   Revenue   150k   Growth\n") =
      ([[[str "Q1", str "Revenue", str "100k", str "Growth"],
         [str "Q2", str "Revenue", str "150k", str "Growth"]]], []) ∧
    maxColsOf [[str "Q1", str "Revenue", str "100k", str "Growth"],
               [str "Q2", str "Revenue", str "150k", str "Growth"]] = 4 := by
  decide

/-- C2 counterexample: the claim describes rule 3 as splitting on runs of 2 or
more space characters, but the code splits on runs of 2 or more whitespace
characters; on the line "aa \t bb  1" (with a run " tab " of mixed
whitespace) the code classifies the line as a table row while the rules as
claimed do not. -/
theorem rowClassifierSpaceOnly_cex :
    isTableRow (str "aa \t bb  1") = true ∧
    isTableRowSpec (str "aa \t bb  1") = false := by
  decide

/-- C2 amended: the row classifier applies its rules in order, first match
deciding: an empty or whitespace-only line is not a table row; a line with 2
or more tabs is one; otherwise the line is split on runs of 2 or more
consecutive WHITESPACE characters, WHITESPACE-ONLY fragments are discarded,
and with fewer than 3 parts the line is not a table row, else it is one
exactly when some part contains a digit and the average part length is below
20. -/
theorem rowClassifierRules (line : Str) :
    isTableRow line = isTableRowAmended line := by
  unfold isTableRow isTableRowAmended
  by_cases h1 : (jsTrim line).isEmpty
  · simp [h1]
  · simp only [h1, Bool.false_eq_true, if_false]
    by_cases h2 : 2 ≤ line.count '\t'
    · simp [h2]
    · simp only [h2, if_false]
      by_cases h3 : 3 ≤ ((splitWs2 line).filter (fun p => !(jsTrim p).isEmpty)).length
      · simp [h3, Nat.not_lt.mpr h3]
      · simp [h3, Nat.lt_of_not_le h3]

/-- The three shape equations of the HTML extraction worker, for any starting
element index. -/
theorem ethGo_shape (doc : List (List (List Str))) : ∀ i : Nat,
    (ethGo i doc).map STable.data =
      (doc.map cleanTbl).filter (fun t => !t.isEmpty) ∧
    (ethGo i doc).map STable.rows =
      ((doc.map cleanTbl).filter (fun t => !t.isEmpty)).map List.length ∧
    (ethGo i doc).map STable.columns =
      ((doc.map cleanTbl).filter (fun t => !t.isEmpty)).map
        (fun d => (d.headD []).length) := by
  induction doc with
  | nil => intro i; simp [ethGo]
  | cons elt rest ih =>
    intro i
    obtain ⟨h1, h2, h3⟩ := ih (i + 1)
    by_cases h : (cleanTbl elt).isEmpty
    · have hn : (cleanTbl elt).length = 0 := by
        rw [List.isEmpty_iff] at h; simp [h]
      simp [ethGo, h, hn, h1, h2, h3]
    · have hn : 0 < (cleanTbl elt).length := by
        rw [List.isEmpty_iff] at h
        exact List.length_pos.mpr h
      simp [ethGo, h, hn, h1, h2, h3]

/-- C9: `extractFromMarkup` produces one table per table element in document
order, each being the element with cell texts trimmed and cell-less rows
dropped; elements left with zero rows are skipped, the row count is the kept
row count, and the column count is the FIRST kept row cell count (unlike the
maximum row length the text-segmentation path uses). -/
theorem htmlExtractionShape (doc : List (List (List Str))) :
    (extractTablesFromHtml doc).map STable.data =
      (doc.map cleanTbl).filter (fun t => !t.isEmpty) ∧
    (extractTablesFromHtml doc).map STable.rows =
      ((doc.map cleanTbl).filter (fun t => !t.isEmpty)).map List.length ∧
    (extractTablesFromHtml doc).map STable.columns =
      ((doc.map cleanTbl).filter (fun t => !t.isEmpty)).map
        (fun d => (d.headD []).length) :=
  ethGo_shape doc 0

/-- The segmentation fold, started in a state whose in-table flag agrees with
the current candidate, closes to the accumulated tables plus the run-based
table extraction, and accumulates exactly one newline-terminated copy of
every rejected line into the residual text. -/
theorem seg_foldl_spec (L : List Str) : ∀ st : SegState,
    st.inTable = !st.currentTable.isEmpty →
    segClose (L.foldl segStepLine st) = st.tables ++ tablesGo st.currentTable L ∧
    (L.foldl segStepLine st).textWithoutTables =
      st.textWithoutTables ++ residPre L := by
  induction L with
  | nil =>
    intro st hinv
    refine ⟨?_, by simp [residPre, residLines]⟩
    show st.tables ++ _ = st.tables ++ _
    congr 1
    cases hcur : st.currentTable with
    | nil =>
      have hin : st.inTable = false := by rw [hinv, hcur]; rfl
      simp [tablesGo, hin]
    | cons c cs =>
      have hin : st.inTable = true := by rw [hinv, hcur]; rfl
      simp [tablesGo, hin, hcur]
  | cons l ls ih =>
    intro st hinv
    rw [List.foldl_cons]
    by_cases ht : isTableRow l
    · cases hcur : st.currentTable with
      | nil =>
        have hin : st.inTable = false := by rw [hinv, hcur]; rfl
        have hstep : segStepLine st l =
            { st with inTable := true, currentTable := [l] } := by
          simp [segStepLine, ht, hin]
        rw [hstep]
        obtain ⟨h1, h2⟩ := ih { st with inTable := true, currentTable := [l] }
          (by simp)
        refine ⟨?_, ?_⟩
        · rw [h1]; simp [tablesGo, ht, hcur]
        · rw [h2]; simp [residPre, residLines, ht]
      | cons c cs =>
        have hin : st.inTable = true := by rw [hinv, hcur]; rfl
        have hstep : segStepLine st l =
            { st with currentTable := st.currentTable ++ [l] } := by
          simp [segStepLine, ht, hin]
        rw [hstep]
        obtain ⟨h1, h2⟩ := ih { st with currentTable := st.currentTable ++ [l] }
          (by simp [hcur, hin])
        refine ⟨?_, ?_⟩
        · rw [h1]; simp [tablesGo, ht, hcur]
        · rw [h2]; simp [residPre, residLines, ht]
    · cases hcur : st.currentTable with
      | nil =>
        have hin : st.inTable = false := by rw [hinv, hcur]; rfl
        have hstep : segStepLine st l =
            { st with textWithoutTables :=
                st.textWithoutTables ++ l ++ ['\n'] } := by
          simp [segStepLine, ht, hin]
        rw [hstep]
        obtain ⟨h1, h2⟩ := ih
          { st with textWithoutTables := st.textWithoutTables ++ l ++ ['\n'] }
          (by simpa using hinv)
        refine ⟨?_, ?_⟩
        · rw [h1]; simp [tablesGo, ht, hcur]
        · rw [h2]; simp [residPre, residLines, ht, List.append_assoc]
      | cons c cs =>
        have hin : st.inTable = true := by rw [hinv, hcur]; rfl
        have hstep : segStepLine st l =
            { tables := st.tables ++
                (if 2 ≤ st.currentTable.length then [st.currentTable] else []),
              currentTable := [], inTable := false,
              textWithoutTables := st.textWithoutTables ++ l ++ ['\n'] } := by
          simp [segStepLine, ht, hin]
        rw [hstep]
        obtain ⟨h1, h2⟩ := ih
          { tables := st.tables ++
              (if 2 ≤ st.currentTable.length then [st.currentTable] else []),
            currentTable := [], inTable := false,
            textWithoutTables := st.textWithoutTables ++ l ++ ['\n'] }
          (by simp)
        refine ⟨?_, ?_⟩
        · rw [h1]; simp [tablesGo, ht, hcur, List.append_assoc]
        · rw [h2]; simp [residPre, residLines, ht, List.append_assoc]

/-- Closing a run never yields residual-tagged lines. -/
theorem closeRun_filter_res (cur : List Str) :
    (closeRun cur).filter (fun p => decide (p.2 = LineTag.res)) = [] := by
  unfold closeRun
  by_cases h : 2 ≤ cur.length <;> simp [h, List.filter_map, Function.comp_def]

/-- The table-tagged lines of a closed run are the run when it has at least 2
lines, and nothing otherwise. -/
theorem closeRun_filter_tbl (cur : List Str) :
    ((closeRun cur).filter (fun p => decide (p.2 = LineTag.tbl))).map Prod.fst =
      if 2 ≤ cur.length then cur else [] := by
  unfold closeRun
  by_cases h : 2 ≤ cur.length <;>
    simp [h, List.filter_map, Function.comp_def, List.map_map]

/-- The tagged lines, in order, are the pending run followed by the remaining
input: the tagging neither loses, duplicates nor reorders lines. -/
theorem segTagsGo_fst (L : List Str) : ∀ cur : List Str,
    (segTagsGo cur L).map Prod.fst = cur ++ L := by
  induction L with
  | nil => intro cur; simp [segTagsGo, closeRun, List.map_map, Function.comp_def]
  | cons l ls ih =>
    intro cur
    by_cases ht : isTableRow l
    · simp [segTagsGo, ht, ih (cur ++ [l])]
    · simp [segTagsGo, ht, closeRun, List.map_map, Function.comp_def, ih []]

/-- The residual-tagged lines are exactly the rejected lines, in order. -/
theorem segTagsGo_res (L : List Str) : ∀ cur : List Str,
    ((segTagsGo cur L).filter (fun p => decide (p.2 = LineTag.res))).map
        Prod.fst = residLines L := by
  induction L with
  | nil => intro cur; simp [segTagsGo, closeRun_filter_res, residLines]
  | cons l ls ih =>
    intro cur
    by_cases ht : isTableRow l
    · simp [segTagsGo, ht, ih (cur ++ [l]), residLines, List.filter_cons, ht]
    · simp [segTagsGo, ht, List.filter_append, closeRun_filter_res,
        residLines, List.filter_cons, ih []]

/-- The table-tagged lines are exactly the confirmed tables, concatenated in
order. -/
theorem segTagsGo_tbl (L : List Str) : ∀ cur : List Str,
    ((segTagsGo cur L).filter (fun p => decide (p.2 = LineTag.tbl))).map
        Prod.fst = (tablesGo cur L).flatten := by
  induction L with
  | nil =>
    intro cur
    by_cases h : 2 ≤ cur.length <;>
      simp [segTagsGo, closeRun_filter_tbl, tablesGo, h]
  | cons l ls ih =>
    intro cur
    by_cases ht : isTableRow l
    · simp [segTagsGo, ht, ih (cur ++ [l]), tablesGo]
    · by_cases h2 : 2 ≤ cur.length <;>
        simp [segTagsGo, ht, List.filter_append, List.map_append,
          closeRun_filter_tbl, h2, tablesGo, ih []]

/-- Dropped lines were classified as table rows: only table-like lines can be
lost with an undersized candidate run. -/
theorem segTagsGo_drop (L : List Str) : ∀ cur : List Str,
    (∀ x ∈ cur, isTableRow x = true) →
    ∀ p ∈ segTagsGo cur L, p.2 = LineTag.drop → isTableRow p.1 = true := by
  induction L with
  | nil =>
    intro cur hcur p hp _
    unfold segTagsGo closeRun at hp
    obtain ⟨x, hx, rfl⟩ := List.mem_map.mp hp
    exact hcur x hx
  | cons l ls ih =>
    intro cur hcur p hp htag
    by_cases ht : isTableRow l
    · rw [segTagsGo, if_pos ht] at hp
      refine ih (cur ++ [l]) ?_ p hp htag
      intro x hx
      rcases List.mem_append.mp hx with h | h
      · exact hcur x h
      · rcases List.mem_singleton.mp h with rfl; exact ht
    · rw [segTagsGo, if_neg ht] at hp
      rcases List.mem_append.mp hp with h | h
      · obtain ⟨x, hx, rfl⟩ := List.mem_map.mp (by
          unfold closeRun at h; exact h)
        exact hcur x hx
      · rcases List.mem_cons.mp h with rfl | h
        · cases htag
        · exact ih [] (by intro x hx; cases hx) p h htag

/-- Every table the run-based extraction confirms has at least 2 lines. -/
theorem tablesGo_min2 (L : List Str) : ∀ cur : List Str,
    ∀ t ∈ tablesGo cur L, 2 ≤ t.length := by
  induction L with
  | nil =>
    intro cur t ht
    unfold tablesGo at ht
    by_cases h : 2 ≤ cur.length
    · rw [if_pos h] at ht; rcases List.mem_singleton.mp ht with rfl; exact h
    · rw [if_neg h] at ht; cases ht
  | cons l ls ih =>
    intro cur t ht
    by_cases hl : isTableRow l
    · rw [tablesGo, if_pos hl] at ht; exact ih (cur ++ [l]) t ht
    · rw [tablesGo, if_neg hl] at ht
      rcases List.mem_append.mp ht with h | h
      · by_cases h2 : 2 ≤ cur.length
        · rw [if_pos h2] at h; rcases List.mem_singleton.mp h with rfl; exact h2
        · rw [if_neg h2] at h; cases h
      · exact ih [] t h

/-- The raw segmentation of a text equals the run-based extraction of its
trimmed lines, and the pre-trim residual is the newline-joined rejected
lines. -/
theorem detectTablesRaw_eq (text : Str) :
    (detectTablesRaw text).1 = tablesGo [] ((splitNl text).map jsTrim) ∧
    (detectTablesRaw text).2 = residPre ((splitNl text).map jsTrim) := by
  have hfold : (splitNl text).foldl segStep ⟨[], [], [], false⟩ =
      ((splitNl text).map jsTrim).foldl segStepLine ⟨[], [], [], false⟩ := by
    rw [List.foldl_map]
    rfl
  have h := seg_foldl_spec ((splitNl text).map jsTrim) ⟨[], [], [], false⟩
    (by rfl)
  have h1 := h.1
  have h2 := h.2
  simp only [List.nil_append] at h1 h2
  unfold detectTablesRaw
  rw [hfold]
  exact ⟨h1, h2⟩

/-- C1 counterexample: on the input "a", "Q1  Rev  100", "b" the middle line
is classified as a table row, forms a one-line candidate that is discarded,
and appears neither in any table (there are none) nor in the residual text:
the reassembled lines are not the lines of the input. -/
theorem segmentationLineLost_cex :
    (detectTables (str "a\nQ1  Rev  100\nb")).1 = [] ∧
    (detectTables (str "a\nQ1  Rev  100\nb")).2 = str "a\nb" ∧
    str "Q1  Rev  100" ∈ (splitNl (str "a\nQ1  Rev  100\nb")).map jsTrim ∧
    str "Q1  Rev  100" ∉ splitNl ((detectTables (str "a\nQ1  Rev  100\nb")).2) := by
  decide

/-- C1 amended: every trimmed input line is classified exactly once, in
original order, as absorbed into a confirmed table, kept in the residual
text, or dropped with a table-like candidate run of fewer than 2 lines; the
absorbed lines, in order, are exactly the concatenation of the raw tables;
the pre-trim residual text is exactly every rejected line, in original
order, each followed by a newline; dropped lines are always table-like; and
the final residual text additionally trims leading and trailing
whitespace. -/
theorem segmentationLinePartition (text : Str) :
    (segTags ((splitNl text).map jsTrim)).map Prod.fst =
      (splitNl text).map jsTrim ∧
    (detectTablesRaw text).1.flatten =
      ((segTags ((splitNl text).map jsTrim)).filter
        (fun p => decide (p.2 = LineTag.tbl))).map Prod.fst ∧
    (detectTablesRaw text).2 = residPre ((splitNl text).map jsTrim) ∧
    (detectTables text).2 = jsTrim (detectTablesRaw text).2 ∧
    ∀ p ∈ segTags ((splitNl text).map jsTrim), p.2 = LineTag.drop →
      isTableRow p.1 = true := by
  refine ⟨segTagsGo_fst _ [], ?_, (detectTablesRaw_eq text).2, rfl, ?_⟩
  · rw [(detectTablesRaw_eq text).1]
    exact (segTagsGo_tbl _ []).symm
  · exact segTagsGo_drop _ [] (by intro x hx; cases hx)

/-- Witness for the line-partition theorem: instantiating its dropped-lines
clause on a concrete input shows the lost middle line is table-like. -/
theorem segmentationLinePartition_witness :
    isTableRow (str "Q1  Rev  100") = true :=
  (segmentationLinePartition (str "a\nQ1  Rev  100\nz")).2.2.2.2
    (str "Q1  Rev  100", LineTag.drop) (by decide) (by decide)

/-- Closing the candidate of the text-path scanner of src/processor.js keeps
the at-least-2-rows invariant. -/
theorem dttClose_min2 (st : DTState) (h : ∀ t ∈ st.tables, 2 ≤ t.rows) :
    ∀ t ∈ (dttClose st).tables, 2 ≤ t.rows := by
  intro t ht
  unfold dttClose at ht
  split at ht
  next hc =>
    simp only at ht
    rcases List.mem_append.mp ht with h1 | h1
    · exact h t h1
    · rcases List.mem_singleton.mp h1 with rfl
      have h2 : 1 < st.currentTable.length := by
        have := (Bool.and_eq_true _ _).mp hc
        exact of_decide_eq_true this.2
      show 2 ≤ st.currentTable.length
      omega
  next => exact h t ht

/-- One scanner step either leaves the accumulated tables unchanged or closes
the candidate. -/
theorem dttStep_tables (st : DTState) (raw : Str) :
    (dttStep st raw).tables = st.tables ∨ dttStep st raw = dttClose st := by
  simp only [dttStep]
  split
  · left
    split
    · split <;> rfl
    · split <;> rfl
  · right; rfl

/-- The text-path scanner fold preserves the at-least-2-rows invariant
through the final close. -/
theorem dtt_foldl_min2 (L : List Str) : ∀ st : DTState,
    (∀ t ∈ st.tables, 2 ≤ t.rows) →
    ∀ t ∈ (dttClose (L.foldl dttStep st)).tables, 2 ≤ t.rows := by
  induction L with
  | nil => intro st h; exact dttClose_min2 st h
  | cons l ls ih =>
    intro st h
    rw [List.foldl_cons]
    apply ih
    rcases dttStep_tables st l with heq | heq
    · rw [heq]; exact h
    · rw [heq]; exact dttClose_min2 st h

/-- Every table of the HTML extraction worker has at least one row. -/
theorem ethGo_min1 (doc : List (List (List Str))) : ∀ i : Nat,
    ∀ t ∈ ethGo i doc, 1 ≤ t.rows := by
  induction doc with
  | nil => intro i t ht; cases ht
  | cons elt rest ih =>
    intro i t ht
    unfold ethGo at ht
    rcases List.mem_append.mp ht with h1 | h1
    · split at h1
      next hp =>
        rcases List.mem_singleton.mp h1 with rfl
        exact hp
      next => cases h1
    · exact ih (i + 1) t h1

/-- C3 counterexample: HTML markup extraction of a one-table document whose
table has a single one-cell row produces a Table with exactly 1 row, so not
every Table the system produces has at least 2 rows. -/
theorem htmlSingleRowTable_cex :
    extractTablesFromHtml [[[str "x"]]] =
      [{ index := 1, rows := 1, columns := 1, data := [[str "x"]] }] ∧
    (extractTablesFromHtml [[[str "x"]]]).map STable.rows = [1] := by
  decide

/-- C3 amended: every Table produced by the two text-segmentation paths has
at least 2 rows, so a single table-like line surrounded by prose never
becomes a Table there; HTML markup extraction skips only zero-row tables,
so its Tables are guaranteed at least 1 row only. -/
theorem tableMinRows :
    (∀ text : Str, ∀ t ∈ (detectTables text).1, 2 ≤ t.length) ∧
    (∀ text : Str, ∀ t ∈ detectTablesInText text, 2 ≤ t.rows) ∧
    (∀ doc : List (List (List Str)), ∀ t ∈ extractTablesFromHtml doc,
      1 ≤ t.rows) := by
  refine ⟨?_, ?_, ?_⟩
  · intro text t ht
    unfold detectTables at ht
    rw [(detectTablesRaw_eq text).1] at ht
    obtain ⟨raw, hraw, rfl⟩ := List.mem_map.mp ht
    have h2 := tablesGo_min2 _ [] raw hraw
    simpa [parseTableRows] using h2
  · intro text t ht
    unfold detectTablesInText at ht
    exact dtt_foldl_min2 _ ⟨[], [], false⟩ (by intro u hu; cases hu) t ht
  · intro doc t ht
    exact ethGo_min1 doc 0 t ht

/-- Witness for the minimum-row-count theorem: applied to the two-line
table input, the single table found has 2 rows. -/
theorem tableMinRows_witness :
    2 ≤ ([[str "Q1", str "Revenue", str "100k", str "Growth"],
          [str "Q2", str "Revenue", str "150k", str "Growth"]] :
          List (List Str)).length :=
  tableMinRows.1
    (str "Q1   Revenue   100k   Growth\nQ2   Revenue   150k   Growth\n")
    [[str "Q1", str "Revenue", str "100k", str "Growth"],
     [str "Q2", str "Revenue", str "150k", str "Growth"]] (by decide)

/-- The length fold of `maxColsOf` never goes below its starting value. -/
theorem foldl_max_le_init (rows : List (List Str)) : ∀ m : Nat,
    m ≤ rows.foldl (fun m r => max m r.length) m := by
  induction rows with
  | nil => intro m; exact Nat.le_refl m
  | cons a rs ih =>
    intro m
    calc m ≤ max m a.length := Nat.le_max_left _ _
    _ ≤ rs.foldl (fun m r => max m r.length) (max m a.length) := ih _

/-- Every row length is bounded by the length fold, whatever its start. -/
theorem le_foldl_max (rows : List (List Str)) : ∀ m : Nat, ∀ r ∈ rows,
    r.length ≤ rows.foldl (fun m r => max m r.length) m := by
  induction rows with
  | nil => intro m r hr; cases hr
  | cons a rs ih =>
    intro m r hr
    rcases List.mem_cons.mp hr with rfl | hr
    · calc r.length ≤ max m r.length := Nat.le_max_right _ _
      _ ≤ rs.foldl (fun m r => max m r.length) (max m r.length) :=
        foldl_max_le_init rs _
    · exact ih _ r hr

/-- Every row length is bounded by the maximum column count. -/
theorem le_maxColsOf (rows : List (List Str)) (r : List Str) (hr : r ∈ rows) :
    r.length ≤ maxColsOf rows :=
  le_foldl_max rows 0 r hr

/-- C5: normalization in `formatTable` right-pads every row with empty-string
cells to exactly the maximum row length (`columnCount`); rows are never
truncated and never exceed the column count.  The rendering itself is a total
function of the rows, so it cannot throw. -/
theorem renderNormalization (rows : List (List Str)) (i : Nat)
    (hi : i < rows.length) :
    (normalizeRows rows).getD i [] =
      rows.getD i [] ++
        List.replicate (maxColsOf rows - (rows.getD i []).length) [] ∧
    ((normalizeRows rows).getD i []).length = maxColsOf rows ∧
    (rows.getD i []).length ≤ maxColsOf rows := by
  have hmem : rows.getD i [] ∈ rows := by
    rw [List.getD_eq_getElem?_getD, List.getElem?_eq_getElem hi]
    exact List.getElem_mem hi
  have hle : (rows.getD i []).length ≤ maxColsOf rows :=
    le_maxColsOf rows _ hmem
  have heq : (normalizeRows rows).getD i [] =
      rows.getD i [] ++
        List.replicate (maxColsOf rows - (rows.getD i []).length) [] := by
    unfold normalizeRows
    rw [List.getD_eq_getElem?_getD, List.getElem?_map,
      List.getElem?_eq_getElem hi, List.getD_eq_getElem?_getD,
      List.getElem?_eq_getElem hi]
    rfl
  refine ⟨heq, ?_, hle⟩
  rw [heq, List.length_append, List.length_replicate]
  omega

/-- Witness for the normalization theorem at a concrete ragged table. -/
theorem renderNormalization_witness :
    (normalizeRows [[str "a"], [str "bb", str "c"]]).getD 0 [] =
      [[str "a"], [str "bb", str "c"]].getD 0 [] ++
        List.replicate (maxColsOf [[str "a"], [str "bb", str "c"]] -
          ([[str "a"], [str "bb", str "c"]].getD 0 []).length) [] ∧
    ((normalizeRows [[str "a"], [str "bb", str "c"]]).getD 0 []).length =
      maxColsOf [[str "a"], [str "bb", str "c"]] ∧
    ([[str "a"], [str "bb", str "c"]].getD 0 []).length ≤
      maxColsOf [[str "a"], [str "bb", str "c"]] :=
  renderNormalization [[str "a"], [str "bb", str "c"]] 0 (by decide)

/-- Splitting a string that does not contain the separator yields the whole
string as a single fragment. -/
theorem splitChar_not_mem (c : Char) (l : Str) (h : c ∉ l) :
    splitChar c l = [l] := by
  induction l with
  | nil => rfl
  | cons x xs ih =>
    have hx : ¬x = c := by
      intro he; exact h (he ▸ List.mem_cons_self x xs)
    have hxs : c ∉ xs := fun hm => h (List.mem_cons_of_mem _ hm)
    unfold splitChar
    rw [ih hxs]
    simp [hx]

/-- A character split never produces an empty fragment list. -/
theorem splitChar_ne_nil (c : Char) (s : Str) : splitChar c s ≠ [] := by
  cases s with
  | nil => simp [splitChar]
  | cons x xs =>
    unfold splitChar
    cases h : splitChar c xs with
    | nil => simp
    | cons a t => by_cases hx : x = c <;> simp [hx]

/-- Splitting past a separator that follows a separator-free piece peels off
that piece as one fragment. -/
theorem splitChar_sep (c : Char) (l : Str) (h : c ∉ l) (s : Str) :
    splitChar c (l ++ c :: s) = l :: splitChar c s := by
  induction l with
  | nil =>
    show splitChar c (c :: s) = [] :: splitChar c s
    cases hs : splitChar c s with
    | nil => exact absurd hs (splitChar_ne_nil c s)
    | cons a t =>
      simp only [splitChar]
      rw [hs]
      simp
  | cons x l2 ih =>
    have hx : ¬x = c := by
      intro he; exact h (he ▸ List.mem_cons_self x l2)
    have hl2 : c ∉ l2 := fun hm => h (List.mem_cons_of_mem _ hm)
    show splitChar c (x :: (l2 ++ c :: s)) = (x :: l2) :: splitChar c s
    simp only [splitChar]
    rw [ih hl2]
    simp [hx]

/-- Splitting on the join separator recovers the separator-free fragments. -/
theorem splitChar_joinWith (c : Char) (L : List Str) (hne : L ≠ [])
    (hmem : ∀ l ∈ L, c ∉ l) : splitChar c (joinWith [c] L) = L := by
  induction L with
  | nil => exact absurd rfl hne
  | cons a rest ih =>
    cases rest with
    | nil =>
      show splitChar c a = [a]
      exact splitChar_not_mem c a (hmem a (List.mem_cons_self a []))
    | cons b rest2 =>
      have hJ : joinWith [c] (a :: b :: rest2) =
          a ++ c :: joinWith [c] (b :: rest2) := by
        show a ++ [c] ++ joinWith [c] (b :: rest2) = _
        simp
      rw [hJ, splitChar_sep c a (hmem a (List.mem_cons_self a _)) _,
        ih (by simp) (fun l hl => hmem l (List.mem_cons_of_mem _ hl))]

/-- A character of a join comes from the separator or from a fragment. -/
theorem mem_joinWith (sep : Str) (ch : Char) (xs : List Str)
    (h : ch ∈ joinWith sep xs) : ch ∈ sep ∨ ∃ x ∈ xs, ch ∈ x := by
  induction xs with
  | nil => cases h
  | cons a rest ih =>
    cases rest with
    | nil => exact Or.inr ⟨a, List.mem_cons_self a [], h⟩
    | cons b r2 =>
      simp only [joinWith] at h
      rcases List.mem_append.mp h with h1 | h1
      · rcases List.mem_append.mp h1 with h2 | h2
        · exact Or.inr ⟨a, List.mem_cons_self a _, h2⟩
        · exact Or.inl h2
      · rcases ih h1 with h2 | ⟨x, hx, hcx⟩
        · exact Or.inl h2
        · exact Or.inr ⟨x, List.mem_cons_of_mem _ hx, hcx⟩

/-- C10: for every output format other than markdown, the attempted call of
the grid renderer inside `formatForClaude` resolves the identifier `table` to
the forEach callback parameter (which shadows the imported rendering
function), so the call throws a TypeError and the per-table block always
degrades to the plain " | "-joined fallback; the configured box-drawing grid
is never produced. -/
theorem tableShadowingFallback (mdRender : List (List Str) → Str)
    (outputFormat : Str) (t : STable) (h : outputFormat ≠ str "markdown") :
    jsCall1 (callbackTableBinding t) t.data =
      Except.error (str "TypeError: table is not a function") ∧
    fcTableBlock mdRender outputFormat t =
      str "### Table " ++ numToStr t.index ++ str " (" ++ numToStr t.rows ++
      str " rows × " ++ numToStr t.columns ++ str " columns)\n\n" ++
      (fallbackRender t.data ++ str "\n\n") := by
  refine ⟨rfl, ?_⟩
  unfold fcTableBlock
  rw [if_neg h]
  rfl

/-- Witness for the shadowing theorem at a concrete table and format. -/
theorem tableShadowingFallback_witness :
    jsCall1 (callbackTableBinding ⟨1, 2, 2, [[str "a", str "b"], [str "c", str "d"]]⟩)
        (STable.data ⟨1, 2, 2, [[str "a", str "b"], [str "c", str "d"]]⟩) =
      Except.error (str "TypeError: table is not a function") :=
  (tableShadowingFallback (fun _ => []) (str "enhanced-text")
    ⟨1, 2, 2, [[str "a", str "b"], [str "c", str "d"]]⟩ (by decide)).1

/-- C6: when rendering a table fails, the failure is not propagated: the
per-table rendering returns the fallback of the rows each joined by " | ",
and for a non-empty table with newline-free cells the fallback emits exactly
one line per row.  The fallback is a total function, so it cannot throw. -/
theorem renderFailureFallback (t : STable) (e : Str)
    (herr : jsCall1 (callbackTableBinding t) t.data = Except.error e) :
    renderEnhancedTable t = fallbackRender t.data ++ str "\n\n" ∧
    fallbackRender t.data =
      joinWith ['\n'] (t.data.map (fun row => joinWith (str " | ") row)) ∧
    (t.data ≠ [] → (∀ row ∈ t.data, ∀ c ∈ row, '\n' ∉ c) →
      (splitChar '\n' (fallbackRender t.data)).length = t.data.length) := by
  refine ⟨?_, rfl, ?_⟩
  · unfold renderEnhancedTable
    rw [herr]
  · intro hne hnl
    unfold fallbackRender
    rw [splitChar_joinWith '\n' _ (by simpa using hne) ?_]
    · exact List.length_map _ _
    · intro l hl
      obtain ⟨row, hrow, rfl⟩ := List.mem_map.mp hl
      intro hmem
      rcases mem_joinWith _ _ _ hmem with h1 | ⟨x, hx, hcx⟩
      · revert h1; decide
      · exact hnl row hrow x hx hcx

/-- Witness for the failure-fallback theorem at a concrete ragged table. -/
theorem renderFailureFallback_witness :
    renderEnhancedTable ⟨1, 2, 2, [[str "a", str "b"], [str "c"]]⟩ =
      fallbackRender [[str "a", str "b"], [str "c"]] ++ str "\n\n" :=
  (renderFailureFallback ⟨1, 2, 2, [[str "a", str "b"], [str "c"]]⟩
    (str "TypeError: table is not a function") rfl).1

/-- The common character width of every grid line over a width list. -/
def gridWidth (ws : List Nat) : Nat :=
  (ws.map (fun w => w + 2)).sum + (ws.length - 1) + 2

/-- Length of a join: the fragment lengths plus one separator between
consecutive fragments. -/
theorem len_joinWith (sep : Str) : ∀ xs : List Str,
    (joinWith sep xs).length = sumLens xs + sep.length * (xs.length - 1) := by
  intro xs
  induction xs with
  | nil => simp [joinWith, sumLens]
  | cons a rest ih =>
    cases rest with
    | nil => simp [joinWith, sumLens]
    | cons b r2 =>
      simp only [joinWith, List.length_append] at ih ⊢
      rw [ih]
      simp only [sumLens, List.map_cons, List.sum_cons, List.length_cons,
        Nat.add_sub_cancel]
      ring

/-- Every horizontal border line has the common grid width. -/
theorem len_hbar (l m r : Char) (ws : List Nat) :
    (hbar l m r ws).length = gridWidth ws := by
  unfold hbar gridWidth
  simp only [List.length_cons, List.length_append, List.length_singleton,
    List.length_nil, len_joinWith, sumLens, List.map_map, Function.comp_def,
    List.length_replicate, List.length_map]
  omega

/-- The padded pieces of a row line sum to the same widths as a border line,
as soon as every cell is within its column width. -/
theorem pieces_shape (row : List Str) (ws : List Nat)
    (hF : List.Forall₂ (fun (c : Str) w => c.length ≤ w) row ws) :
    sumLens (List.zipWith (fun cell w => ' ' :: padEnd cell w ++ [' ']) row ws) =
      (ws.map (fun w => w + 2)).sum ∧
    (List.zipWith (fun cell w => ' ' :: padEnd cell w ++ [' ']) row ws).length =
      ws.length := by
  induction hF with
  | nil => simp [sumLens]
  | cons hcw _ ih =>
    simp only [List.zipWith_cons_cons, sumLens, List.map_cons, List.sum_cons,
      List.length_cons] at ih ⊢
    constructor
    · rw [ih.1]
      simp only [padEnd, List.length_cons, List.length_append,
        List.length_replicate, List.length_singleton, List.length_nil]
      omega
    · rw [ih.2]

/-- Every content line has the common grid width when each of its cells is
within its column width. -/
theorem len_rowLine (row : List Str) (ws : List Nat)
    (hF : List.Forall₂ (fun (c : Str) w => c.length ≤ w) row ws) :
    (rowLine ws row).length = gridWidth ws := by
  obtain ⟨h1, h2⟩ := pieces_shape row ws hF
  unfold rowLine gridWidth
  simp only [List.length_cons, List.length_append, List.length_singleton,
    List.length_nil, len_joinWith, h1, h2]
  omega

/-- Widening a width list keeps its length. -/
theorem updW_length : ∀ (ws : List Nat) (row : List Str),
    (updW ws row).length = ws.length := by
  intro ws
  induction ws with
  | nil => intro row; cases row <;> rfl
  | cons w ws2 ih =>
    intro row
    cases row with
    | nil => rfl
    | cons c cs => simp [updW, ih]

/-- The width fold keeps the length of the initial width list. -/
theorem foldl_updW_length (rows : List (List Str)) : ∀ ws : List Nat,
    (rows.foldl updW ws).length = ws.length := by
  induction rows with
  | nil => intro ws; rfl
  | cons a rs ih =>
    intro ws
    rw [List.foldl_cons, ih, updW_length]

/-- Widening only increases widths pointwise. -/
theorem updW_ge : ∀ (ws : List Nat) (row : List Str),
    List.Forall₂ (fun a b => a ≤ b) ws (updW ws row) := by
  intro ws
  induction ws with
  | nil =>
    intro row
    cases row <;> exact List.Forall₂.nil
  | cons w ws2 ih =>
    intro row
    cases row with
    | nil => exact List.forall₂_same.mpr (fun x _ => Nat.le_refl x)
    | cons c cs => exact List.Forall₂.cons (Nat.le_max_left _ _) (ih cs)

/-- Pointwise order on lists is transitive. -/
theorem forall₂_le_trans : ∀ {a b c : List Nat},
    List.Forall₂ (fun x y => x ≤ y) a b → List.Forall₂ (fun x y => x ≤ y) b c →
    List.Forall₂ (fun x y => x ≤ y) a c := by
  intro a b c hab hbc
  induction hab generalizing c with
  | nil => cases hbc; exact List.Forall₂.nil
  | cons h _ ih =>
    cases hbc with
    | cons h2 hrest => exact List.Forall₂.cons (Nat.le_trans h h2) (ih hrest)

/-- The width fold only increases widths pointwise. -/
theorem foldl_updW_ge (rows : List (List Str)) : ∀ ws : List Nat,
    List.Forall₂ (fun a b => a ≤ b) ws (rows.foldl updW ws) := by
  induction rows with
  | nil =>
    intro ws
    exact List.forall₂_same.mpr (fun x _ => Nat.le_refl x)
  | cons a rs ih =>
    intro ws
    rw [List.foldl_cons]
    exact forall₂_le_trans (updW_ge ws a) (ih (updW ws a))

/-- After widening by a row of matching length, every cell is within its
column width. -/
theorem updW_row_bound : ∀ (ws : List Nat) (row : List Str),
    row.length = ws.length →
    List.Forall₂ (fun (c : Str) w => c.length ≤ w) row (updW ws row) := by
  intro ws
  induction ws with
  | nil =>
    intro row hlen
    rw [List.length_eq_zero.mp hlen]
    exact List.Forall₂.nil
  | cons w ws2 ih =>
    intro row hlen
    cases row with
    | nil => cases hlen
    | cons c cs =>
      refine List.Forall₂.cons (Nat.le_max_right _ _) (ih cs ?_)
      simpa using hlen

/-- Cell bounds survive pointwise widening. -/
theorem bound_mono : ∀ {row : List Str} {ws ws2 : List Nat},
    List.Forall₂ (fun (c : Str) w => c.length ≤ w) row ws →
    List.Forall₂ (fun a b => a ≤ b) ws ws2 →
    List.Forall₂ (fun (c : Str) w => c.length ≤ w) row ws2 := by
  intro row ws ws2 h1 h2
  induction h1 generalizing ws2 with
  | nil => cases h2; exact List.Forall₂.nil
  | cons h _ ih =>
    cases h2 with
    | cons hw hrest => exact List.Forall₂.cons (Nat.le_trans h hw) (ih hrest)

/-- Every row that entered the width fold has its cells within the final
column widths, as long as all rows match the width-list length. -/
theorem row_bound_foldl (rows : List (List Str)) : ∀ (ws : List Nat)
    (row : List Str), row ∈ rows → (∀ x ∈ rows, x.length = ws.length) →
    List.Forall₂ (fun (c : Str) w => c.length ≤ w) row (rows.foldl updW ws) := by
  induction rows with
  | nil => intro ws row hr; cases hr
  | cons a rs ih =>
    intro ws row hr hlen
    rw [List.foldl_cons]
    rcases List.mem_cons.mp hr with rfl | hr
    · exact bound_mono
        (updW_row_bound ws row (hlen row (List.mem_cons_self _ _)))
        (foldl_updW_ge rs (updW ws row))
    · refine ih (updW ws a) row hr ?_
      intro x hx
      rw [updW_length]
      exact hlen x (List.mem_cons_of_mem _ hx)

/-- Every normalized row has the maximum column count as its length. -/
theorem normalizeRows_row_length (rows : List (List Str)) :
    ∀ x ∈ normalizeRows rows, x.length = maxColsOf rows := by
  intro x hx
  obtain ⟨r, hr, rfl⟩ := List.mem_map.mp hx
  have := le_maxColsOf rows r hr
  simp only [List.length_append, List.length_replicate]
  omega

/-- The column-width list has one width per column. -/
theorem colWidthsOf_length (rows : List (List Str)) :
    (colWidthsOf rows).length = maxColsOf rows := by
  unfold colWidthsOf
  rw [foldl_updW_length, List.length_replicate]

/-- Every normalized row is cell-wise within the computed column widths. -/
theorem colWidthsOf_bound (rows : List (List Str)) :
    ∀ row ∈ normalizeRows rows,
      List.Forall₂ (fun (c : Str) w => c.length ≤ w) row (colWidthsOf rows) := by
  intro row hrow
  unfold colWidthsOf
  refine row_bound_foldl (normalizeRows rows) _ row hrow ?_
  intro x hx
  rw [List.length_replicate]
  exact normalizeRows_row_length rows x hx

/-- Unfolding a join on a non-empty tail. -/
theorem joinWith_cons (sep x : Str) (rest : List Str) (h : rest ≠ []) :
    joinWith sep (x :: rest) = x ++ sep ++ joinWith sep rest := by
  cases rest with
  | nil => exact absurd rfl h
  | cons b r2 => rfl

/-- A join that ends in a last fragment equals the newline-terminated
fragments followed by that last fragment. -/
theorem joinWith_snoc (c : Char) : ∀ (xs : List Str) (b : Str),
    joinWith [c] (xs ++ [b]) = (xs.map (fun x => x ++ [c])).flatten ++ b := by
  intro xs
  induction xs with
  | nil => intro b; simp [joinWith]
  | cons a rest ih =>
    intro b
    rw [List.cons_append, joinWith_cons _ _ _ (by simp), ih b]
    simp [List.append_assoc]

/-- For a non-empty table, the rendered string is the newline-join of the
grid lines. -/
theorem formatTable_eq (rows : List (List Str)) (h : rows ≠ []) :
    formatTable rows = joinWith ['\n'] (gridLines rows) := by
  have hne : rows.isEmpty = false := by
    cases rows with
    | nil => exact absurd rfl h
    | cons a t => rfl
  have h0 : 0 < (normalizeRows rows).length := by
    unfold normalizeRows
    rw [List.length_map]
    exact List.length_pos.mpr h
  have hcond : ¬rows.isEmpty = true := by simp [hne]
  simp only [formatTable, gridLines]
  rw [if_neg hcond, if_pos h0]
  by_cases h1 : 1 < (normalizeRows rows).length
  · rw [if_pos h1, if_pos h1, List.cons_append,
      joinWith_cons _ _ _ (by simp), joinWith_cons _ _ _ (by simp),
      joinWith_cons _ _ _ (by simp), joinWith_snoc]
    simp [List.map_map, Function.comp_def, List.append_assoc]
  · rw [if_neg h1, if_neg h1, List.nil_append,
      joinWith_cons _ _ _ (by simp), joinWith_cons _ _ _ (by simp)]
    simp [joinWith, List.append_assoc]

/-- An element of a zip comes from a pair of corresponding elements. -/
theorem mem_zipWith_exists {α β γ : Type} (f : α → β → γ) :
    ∀ (as : List α) (bs : List β) (x : γ), x ∈ List.zipWith f as bs →
    ∃ a b, a ∈ as ∧ b ∈ bs ∧ x = f a b := by
  intro as
  induction as with
  | nil => intro bs x hx; simp [List.zipWith] at hx
  | cons a as2 ih =>
    intro bs x hx
    cases bs with
    | nil => simp [List.zipWith] at hx
    | cons b bs2 =>
      rw [List.zipWith_cons_cons] at hx
      rcases List.mem_cons.mp hx with rfl | hx
      · exact ⟨a, b, List.mem_cons_self _ _, List.mem_cons_self _ _, rfl⟩
      · obtain ⟨a2, b2, ha, hb, rfl⟩ := ih bs2 x hx
        exact ⟨a2, b2, List.mem_cons_of_mem _ ha, List.mem_cons_of_mem _ hb,
          rfl⟩

/-- Border lines never contain a newline. -/
theorem hbar_no_nl (l m r : Char) (ws : List Nat) (hl : l ≠ '\n')
    (hm : m ≠ '\n') (hr : r ≠ '\n') : '\n' ∉ hbar l m r ws := by
  intro hmem
  unfold hbar at hmem
  rcases List.mem_cons.mp hmem with he | hmem2
  · exact hl he.symm
  rcases List.mem_append.mp hmem2 with hj | hb
  · rcases mem_joinWith _ _ _ hj with hs | ⟨x, hx, hcx⟩
    · exact hm (List.mem_singleton.mp hs).symm
    · obtain ⟨w, hw, rfl⟩ := List.mem_map.mp hx
      exact absurd (List.eq_of_mem_replicate hcx) (by decide)
  · exact hr (List.mem_singleton.mp hb).symm

/-- Content lines never contain a newline when no cell does. -/
theorem rowLine_no_nl (ws : List Nat) (row : List Str)
    (h : ∀ c ∈ row, '\n' ∉ c) : '\n' ∉ rowLine ws row := by
  intro hmem
  unfold rowLine at hmem
  rcases List.mem_cons.mp hmem with he | hmem2
  · exact absurd he (by decide)
  rcases List.mem_append.mp hmem2 with hj | hb
  · rcases mem_joinWith _ _ _ hj with hs | ⟨x, hx, hcx⟩
    · exact absurd (List.mem_singleton.mp hs) (by decide)
    · obtain ⟨cell, w, hc, hw, rfl⟩ := mem_zipWith_exists _ _ _ _ hx
      rcases List.mem_cons.mp hcx with he | hcx2
      · exact absurd he (by decide)
      rcases List.mem_append.mp hcx2 with hp | hsp
      · unfold padEnd at hp
        rcases List.mem_append.mp hp with hc2 | hrep
        · exact h cell hc hc2
        · exact absurd (List.eq_of_mem_replicate hrep) (by decide)
      · exact absurd (List.mem_singleton.mp hsp) (by decide)
  · exact absurd (List.mem_singleton.mp hb) (by decide)

/-- Normalization introduces no newlines: padded rows stay newline-free. -/
theorem normalizeRows_no_nl (rows : List (List Str))
    (h : ∀ row ∈ rows, ∀ c ∈ row, '\n' ∉ c) :
    ∀ row ∈ normalizeRows rows, ∀ c ∈ row, '\n' ∉ c := by
  intro row hrow c hc
  obtain ⟨r, hr, rfl⟩ := List.mem_map.mp hrow
  rcases List.mem_append.mp hc with h1 | h1
  · exact h r hr c h1
  · rw [List.eq_of_mem_replicate h1]
    intro hx
    cases hx

/-- There is always at least one grid line. -/
theorem gridLines_ne_nil (rows : List (List Str)) : gridLines rows ≠ [] := by
  unfold gridLines
  simp

/-- No grid line contains a newline when no cell does. -/
theorem gridLines_no_nl (rows : List (List Str))
    (h : ∀ row ∈ rows, ∀ c ∈ row, '\n' ∉ c) :
    ∀ l ∈ gridLines rows, '\n' ∉ l := by
  intro l hl
  unfold gridLines at hl
  rcases List.mem_cons.mp hl with rfl | hl
  · exact hbar_no_nl _ _ _ _ (by decide) (by decide) (by decide)
  rcases List.mem_cons.mp hl with rfl | hl
  · apply rowLine_no_nl
    cases hnr : normalizeRows rows with
    | nil => intro c hc; simp at hc
    | cons a t =>
      exact normalizeRows_no_nl rows h a
        (by rw [hnr]; exact List.mem_cons_self a t)
  rcases List.mem_append.mp hl with h2 | h2
  · by_cases h1 : 1 < (normalizeRows rows).length
    · rw [if_pos h1] at h2
      rcases List.mem_cons.mp h2 with rfl | h2
      · exact hbar_no_nl _ _ _ _ (by decide) (by decide) (by decide)
      · obtain ⟨r, hr, rfl⟩ := List.mem_map.mp h2
        exact rowLine_no_nl _ _
          (normalizeRows_no_nl rows h r (List.mem_of_mem_drop hr))
    · rw [if_neg h1] at h2
      cases h2
  · rw [List.mem_singleton.mp h2]
    exact hbar_no_nl _ _ _ _ (by decide) (by decide) (by decide)

/-- Every grid line of a non-empty table has the common grid width. -/
theorem gridLines_width (rows : List (List Str)) (h : rows ≠ []) :
    ∀ l ∈ gridLines rows, l.length = gridWidth (colWidthsOf rows) := by
  intro l hl
  unfold gridLines at hl
  rcases List.mem_cons.mp hl with rfl | hl
  · exact len_hbar _ _ _ _
  rcases List.mem_cons.mp hl with rfl | hl
  · apply len_rowLine
    apply colWidthsOf_bound
    cases hnr : normalizeRows rows with
    | nil =>
      have hrows : rows = [] := by
        unfold normalizeRows at hnr
        exact List.map_eq_nil_iff.mp hnr
      exact absurd hrows h
    | cons a t =>
      exact List.mem_cons_self a t
  rcases List.mem_append.mp hl with h2 | h2
  · by_cases h1 : 1 < (normalizeRows rows).length
    · rw [if_pos h1] at h2
      rcases List.mem_cons.mp h2 with rfl | h2
      · exact len_hbar _ _ _ _
      · obtain ⟨r, hr, rfl⟩ := List.mem_map.mp h2
        exact len_rowLine _ _ (colWidthsOf_bound rows r (List.mem_of_mem_drop hr))
    · rw [if_neg h1] at h2
      cases h2
  · rw [List.mem_singleton.mp h2]
    exact len_hbar _ _ _ _

/-- C7: for a non-empty table whose cells contain no newline, every line of
the grid rendering has the same character length as the top border. -/
theorem gridLineLengths (tableRows : List (List Str)) (h1 : tableRows ≠ [])
    (h2 : ∀ row ∈ tableRows, ∀ c ∈ row, '\n' ∉ c) :
    ∀ l ∈ splitChar '\n' (formatTable tableRows),
      l.length = (topBorderOf tableRows).length := by
  rw [formatTable_eq _ h1,
    splitChar_joinWith '\n' _ (gridLines_ne_nil _) (gridLines_no_nl _ h2)]
  intro l hl
  have htop : (topBorderOf tableRows).length =
      gridWidth (colWidthsOf tableRows) := len_hbar _ _ _ _
  rw [htop]
  exact gridLines_width _ h1 l hl

/-- Witness for the grid-line-length theorem at a concrete ragged table. -/
theorem gridLineLengths_witness :
    ((splitChar '\n' (formatTable [[str "a"], [str "bb", str "c"]])).headD
        []).length =
      (topBorderOf [[str "a"], [str "bb", str "c"]]).length :=
  gridLineLengths [[str "a"], [str "bb", str "c"]] (by decide) (by decide)
    ((splitChar '\n' (formatTable [[str "a"], [str "bb", str "c"]])).headD [])
    (by decide)

set_option maxRecDepth 40000 in
/-- C4 counterexample: a PDF-path result whose text contains a two-line
table that `detectTablesInText` finds still gets the FULL extracted text as
its content section in `formatForClaude` — the content begins with the raw
table line that a residual text would have removed — so the body is not the
residual text even though segmentation ran and found tables. -/
theorem fullTextContent_cex :
    (detectTablesInText
        (str "Quarter1\t\tRevenue\t\t100\nQuarter2\t\tRevenue\t\t200\nEnd of report")).length =
      1 ∧
    strIncludes
      (formatForClaude (fun _ => []) (str "enhanced-text")
        { originalPath := str "doc.pdf", mimeType := str "application/pdf",
          processingMethod := str "textract-pdf",
          extractedText :=
            str "Quarter1\t\tRevenue\t\t100\nQuarter2\t\tRevenue\t\t200\nEnd of report",
          tables := detectTablesInText
            (str "Quarter1\t\tRevenue\t\t100\nQuarter2\t\tRevenue\t\t200\nEnd of report") })
      (str "## Document Content\n\nQuarter1\t\tRevenue\t\t100") = true := by
  decide

/-- C4 amended: both formatters emit, in fixed order, a metadata header
block, a tables section present exactly when at least one table was found,
and then a content part; in the PDF processor `enhanceText` the content is
the residual text under a content heading when extraction is enabled and
tables were found, and the full original text without the heading otherwise;
in `formatForClaude` the content section always holds the full extracted
text (present only when that text is non-empty), never a residual text. -/
theorem reportStructure :
    (∀ (et : Bool) (text : Str) (np : Nat) (ti : Option Str),
      enhanceText et text np ti =
        enhHeader np ti ++
          (if et && decide (0 < (detectTables text).1.length) then
            enhTablesSection (detectTables text).1 ++
              str "## Document Content\n\n" ++ (detectTables text).2
          else text)) ∧
    (∀ (mdRender : List (List Str) → Str) (fmt : Str) (r : JsResult),
      formatForClaude mdRender fmt r =
        fcHeader r ++ fcTablesSection mdRender fmt r.tables ++ fcContent r) := by
  constructor
  · intro et text np ti
    simp only [enhanceText, enhHeader, enhTablesSection]
    cases et with
    | false => cases ti <;> simp [List.append_assoc]
    | true =>
      by_cases h0 : 0 < (detectTables text).1.length
      · cases ti <;> simp [h0, List.append_assoc]
      · cases ti <;> simp [h0, List.append_assoc]
  · intro mdRender fmt r
    simp only [formatForClaude, fcHeader, fcTablesSection, fcContent]
    by_cases h0 : 0 < r.tables.length
    · by_cases h1 : r.extractedText.isEmpty <;>
        simp [h0, h1, List.append_assoc]
    · by_cases h1 : r.extractedText.isEmpty <;>
        simp [h0, h1, List.append_assoc]

end DocEnhancer
